import Mathlib

/-!
Verification of the yacv-server event log, build cache and lifecycle
(`src/yacv_server/yacv.py` and `src/yacv_server/server.py`).

The Python classes are shallowly embedded as pure Lean functions over an
explicit server-state record.  Machine-level details that the verified
claims do not depend on (threads, sockets, logging, wall-clock waits) are
abstracted away; the data manipulation of every method is translated
statement by statement.  External collaborators that live outside the
repository (`tessellate`, `_hashcode`, `_preprocess_cad`'s OCCT calls) are
taken as parameters of the model (`Externals`).
-/

namespace YacvModel

/-- Byte strings (Python `bytes`) are modelled as lists of byte values. -/
abbrev Bytes := List Nat

/-- Opaque stand-in for an OCCT CAD object (`TopoDS_Shape` / `TopLoc_Location`).
The geometry itself is out of scope; only object identity matters to the
event-log and build-cache logic, so the model carries a bare identifier. -/
structure CadObj where
  id : Nat
deriving DecidableEq

/-- The `YACVSupported = Union[bytes, CADCoreLike]` payload type of `yacv.py`. -/
inductive YACVSupported where
  | raw (b : Bytes)
  | cad (c : CadObj)
deriving DecidableEq

/-- The `**kwargs` dictionary of `show`, restricted to the keys the source
actually reads (`auto_clear` in `show`; `tolerance`, `angular_tolerance`,
`faces`, `edges`, `vertices` in `export`).  A `none` field models an absent
key, so `kwargs.get(k, default)` becomes `Option.getD`.  Numeric tolerances
only flow opaquely into the external build function, so they are modelled
as rationals. -/
structure Kwargs where
  auto_clear : Option Bool
  tolerance : Option Rat
  angular_tolerance : Option Rat
  faces : Option Bool
  edges : Option Bool
  vertices : Option Bool
deriving DecidableEq

/-- The empty `kwargs` dictionary. -/
def kwargsEmpty : Kwargs := ⟨none, none, none, none, none, none⟩

/-- The five build options `YACV.export` extracts from the stored kwargs. -/
structure BuildOpts where
  tolerance : Rat
  angular_tolerance : Rat
  faces : Bool
  edges : Bool
  vertices : Bool
deriving DecidableEq

/-- The `kwargs.get(..., default)` calls of `YACV.export` (lines 256-260). -/
def extractBuildOpts (k : Kwargs) : BuildOpts :=
  ⟨k.tolerance.getD (1/10), k.angular_tolerance.getD (1/10),
   k.faces.getD true, k.edges.getD true, k.vertices.getD true⟩

/-- `UpdatesApiFullData` of `yacv.py`: a show/remove event record. -/
structure UpdatesApiFullData where
  name : String
  hash : String
  is_remove : Bool
  obj : YACVSupported
  kwargs : Kwargs
deriving DecidableEq

/-- Python equality of `UpdatesApiFullData` values.  The `@dataclass`
decorator on the base class `UpdatesApiData` generates `__eq__` over the
dataclass fields only (`name`, `hash`, `is_remove`); the `obj` and `kwargs`
attributes added by the subclass do not participate.  `list.remove` and the
buffer-delete operation compare events with this equality. -/
def eventEq (a b : UpdatesApiFullData) : Bool :=
  a.name == b.name && a.hash == b.hash && a.is_remove == b.is_remove

instance : BEq UpdatesApiFullData := ⟨eventEq⟩

/-- Modelled from the spec: `pubsub.BufferedPubSub` is imported by both
source files but its module is not under `src/`.  Spec section 4.1 describes
it as a broadcast buffer ("Topic"): an ordered, append-only sequence of
items with a system-wide `delete`.  Subscriber cursors are not needed by the
verified claims (every subscription the claims exercise replays the buffer
from the start and reads synchronously), so the model keeps only the shared
item sequence. -/
structure BufferedPubSub (α : Type) where
  buffer : List α
deriving DecidableEq

/-- Modelled from the spec: `publish(item)` appends the item to the shared
sequence (spec section 4.1). -/
def BufferedPubSub.publish (t : BufferedPubSub α) (x : α) : BufferedPubSub α :=
  ⟨t.buffer ++ [x]⟩

/-- Modelled from the spec: `delete(item)` removes the item from the shared
sequence (spec section 4.1).  Like Python `list.remove`, it drops the first
element equal to the argument. -/
def BufferedPubSub.delete [BEq α] (t : BufferedPubSub α) (x : α) : BufferedPubSub α :=
  ⟨t.buffer.eraseP (fun z => z == x)⟩

/-- An empty topic, as built by `BufferedPubSub()`. -/
def emptyTopic (α : Type) : BufferedPubSub α := ⟨[]⟩

/-- Lookup in a Python `dict` modelled as an association list with unique keys. -/
def dictLookup (l : List (String × α)) (k : String) : Option α :=
  (l.find? (fun p => p.1 == k)).map (fun p => p.2)

/-- Python `d[k] = v`: replace the binding in place if the key exists,
otherwise append it. -/
def dictInsert (l : List (String × α)) (k : String) (v : α) : List (String × α) :=
  if l.any (fun p => p.1 == k) then
    l.map (fun p => if p.1 == k then (k, v) else p)
  else l ++ [(k, v)]

/-- Python `del d[k]` (guarded by `if k in d`, so absent keys are a no-op). -/
def dictErase (l : List (String × α)) (k : String) : List (String × α) :=
  l.filter (fun p => p.1 != k)

/-- Fuel-indexed core of `pyForRemove`.  It replays CPython's `for x in lst:
if p(x): lst.remove(x)` loop: the iterator keeps a plain index that is
incremented every round, looked up against the *current* list, while
`remove` drops the first element equal to `x`, so a removal shifts the
remainder left and the element after a removed one is skipped.  The fuel is
the initial length, which bounds the number of rounds because the index
grows every round and the list never grows. -/
def pyForRemoveGo [BEq α] (p : α → Bool) : Nat → Nat → List α → List α
  | 0, _, l => l
  | fuel + 1, i, l =>
    if h : i < l.length then
      if p (l.get ⟨i, h⟩) then
        pyForRemoveGo p fuel (i + 1) (l.eraseP (fun z => z == l.get ⟨i, h⟩))
      else pyForRemoveGo p fuel (i + 1) l
    else l

/-- Python `for x in lst: if p(x): lst.remove(x)` on list `l`. -/
def pyForRemove [BEq α] (p : α → Bool) (l : List α) : List α :=
  pyForRemoveGo p l.length 0 l

/-- Python `lst.remove(x)`: drops the first element equal to `x`, or raises
`ValueError` (modelled as `none`) when no element is equal to it. -/
def pyListRemove [BEq α] (l : List α) (x : α) : Option (List α) :=
  if l.contains x then some (l.eraseP (fun z => z == x)) else none

/-- The collaborators of `yacv.py` that live outside the repository:
`_hashcode` and `tessellate` (from `tessellate.py`) and the OCCT part of
`_preprocess_cad` (`get_shape` plus the Z-up to Y-up rotation).  `buildFn`
folds `tessellate`, `gltf.save_to_bytes()` and the byte join into one
function from the CAD object and extracted options to the final GLB bytes. -/
structure Externals where
  hashFn : YACVSupported → Kwargs → String
  preprocessFn : Kwargs → CadObj → CadObj
  buildFn : CadObj → BuildOpts → Bytes

/-- The mutable state of a `YACV` instance (`yacv.py` lines 62-78).
`server_thread` and `server` model whether the corresponding handles are
non-`None`; `startup_complete` models the `threading.Event`.  Locks and the
`at_least_one_client` event only matter to real-time scheduling and are not
part of the sequential model. -/
structure YACV where
  server_thread : Bool
  server : Bool
  startup_complete : Bool
  show_events : BufferedPubSub UpdatesApiFullData
  build_events : List (String × BufferedPubSub Bytes)
deriving DecidableEq

/-- The state built by `YACV.__init__`. -/
def yacvInit : YACV :=
  { server_thread := false, server := false, startup_complete := false,
    show_events := emptyTopic _, build_events := [] }

/-- Loop body of `YACV._show_events` (lines 217-229): a matching live event
is appended to the result; a matching remove event runs the inner
`for old_event in res: if old_event.name == event.name: res.remove(old_event)`
purge over the result list. -/
def showEventsStep (name : String) (apply_removes : Bool)
    (res : List UpdatesApiFullData) (event : UpdatesApiFullData) :
    List UpdatesApiFullData :=
  if event.name == name then
    if !event.is_remove || !apply_removes then res ++ [event]
    else pyForRemove (fun old => old.name == event.name) res
  else res

/-- `YACV._show_events(name, apply_removes)`: the events for `name` that are
still current after folding remove events over the buffer. -/
def YACV.showEventsFor (y : YACV) (name : String) (apply_removes : Bool) :
    List UpdatesApiFullData :=
  y.show_events.buffer.foldl (showEventsStep name apply_removes) []

/-- `YACV.shown_object_names(apply_removes)` (lines 207-215).  The loop calls
`res.remove(obj.name)` for every remove event, which raises `ValueError`
when the name is absent from `res`; the model therefore returns an `Option`,
with `none` for the raised exception. -/
def YACV.shown_object_names (y : YACV) (apply_removes : Bool) :
    Option (List String) :=
  y.show_events.buffer.foldlM
    (fun res obj =>
      if !obj.is_remove || !apply_removes then some (res ++ [obj.name])
      else pyListRemove res obj.name)
    []

/-- `YACV.remove(name)` (lines 181-197).  When current events exist
(`len(show_events) > 0`, expressed via `getLast?`), every one of them is
deleted from the buffer, the build-cache entry is dropped, and a copy of the
last event with `is_remove = True` is published.  Otherwise nothing happens;
the Python method body has no `raise` and simply falls through. -/
def YACV.remove (y : YACV) (name : String) : YACV :=
  let shows := y.showEventsFor name true
  match shows.getLast? with
  | none => y
  | some lastEv =>
      let y1 : YACV :=
        { y with show_events := shows.foldl (fun b e => b.delete e) y.show_events }
      let y2 : YACV := { y1 with build_events := dictErase y1.build_events name }
      { y2 with show_events := y2.show_events.publish { lastEv with is_remove := true } }

/-- Loop body of `YACV.clear`: skip excepted names, `remove` the rest. -/
def clearStep (except_names : List String) (acc : YACV) (event : UpdatesApiFullData) : YACV :=
  if except_names.contains event.name then acc else acc.remove event.name

/-- `YACV.clear(except_names)` (lines 199-205): call `remove` for every
event name in a snapshot of the buffer that is not excepted. -/
def YACV.clear (y : YACV) (except_names : List String) : YACV :=
  y.show_events.buffer.foldl (clearStep except_names) y

/-- Loop body of the stale-event purge in `YACV.show` (lines 160-164): a
buffered event whose name is being re-shown is deleted from the buffer and
its build-cache entry (if any) is dropped. -/
def purgeStep (names : List String) (acc : YACV) (old : UpdatesApiFullData) : YACV :=
  if names.contains old.name then
    { acc with show_events := acc.show_events.delete old,
               build_events := dictErase acc.build_events old.name }
  else acc

/-- The effect of one round of the purge loop of `YACV.show` on the event
buffer alone (projection of `purgeStep`). -/
def purgeBufStep (names : List String) (b : List UpdatesApiFullData)
    (o : UpdatesApiFullData) : List UpdatesApiFullData :=
  if names.contains o.name then b.eraseP (fun z => z == o) else b

/-- The effect of one round of the purge loop of `YACV.show` on the build
cache alone (projection of `purgeStep`). -/
def purgeDictStep (names : List String) (d : List (String × BufferedPubSub Bytes))
    (o : UpdatesApiFullData) : List (String × BufferedPubSub Bytes) :=
  if names.contains o.name then dictErase d o.name else d

/-- The event one round of the publish loop of `YACV.show` (lines 167-172)
constructs for one (object, name) pair: non-bytes objects are preprocessed,
the hash is computed over the (preprocessed) object and options, and a fresh
live event is built. -/
def publishedEvent (ext : Externals) (kwargs : Kwargs) (obj : YACVSupported)
    (name : String) : UpdatesApiFullData :=
  match obj with
  | .raw b =>
      { name := name, hash := ext.hashFn (YACVSupported.raw b) kwargs,
        is_remove := false, obj := YACVSupported.raw b, kwargs := kwargs }
  | .cad c =>
      { name := name,
        hash := ext.hashFn (YACVSupported.cad (ext.preprocessFn kwargs c)) kwargs,
        is_remove := false, obj := YACVSupported.cad (ext.preprocessFn kwargs c),
        kwargs := kwargs }

/-- Loop body of the publish loop in `YACV.show`: publish the constructed
event. -/
def publishStep (ext : Externals) (kwargs : Kwargs) (acc : YACV)
    (p : YACVSupported × String) : YACV :=
  { acc with show_events := acc.show_events.publish (publishedEvent ext kwargs p.1 p.2) }

/-- `YACV.show(*objs, names=..., **kwargs)` (lines 147-174) with explicit
names.  Name derivation for an absent `names` argument inspects the caller's
stack frames and is environment-dependent, so the model takes the resolved
name list; the claims under verification always pass explicit names.  The
`assert len(names) == len(objs)` precondition is reflected by pairing the
two lists with `zip`, exactly as the publish loop does. -/
def YACV.showObjs (ext : Externals) (y : YACV) (objs : List YACVSupported)
    (names : List String) (kwargs : Kwargs) : YACV :=
  let y1 := if (kwargs.auto_clear.getD true) then y.clear names else y
  let y2 := y1.show_events.buffer.foldl (purgeStep names) y1
  (objs.zip names).foldl (publishStep ext kwargs) y2

/-- Result of `YACV.export(name)`: the returned value (`none` models the
`return None` taken when no current event exists), the state after the call
(a build-cache entry may have been created), and how many times the external
build function (`tessellate`) ran during the call. -/
structure ExportResult where
  result : Option Bytes
  state : YACV
  builds : Nat
deriving DecidableEq

/-- `YACV.export(name)` (lines 231-271), sequentialised: when no current
event exists the method logs a warning and returns `None`; otherwise, under
the cache lock, a missing cache entry is created and filled — directly with
the event's bytes when the payload already is a GLTF, or with the output of
the external build function otherwise — and in either case the first item of
a replaying subscription to the entry's topic is returned (spec section 4.3:
"subscribe to the entry's result Topic and return the first (and only)
delivered item"; the subscription machinery itself lives in the
spec-modelled `BufferedPubSub`). -/
def YACV.exportGlb (ext : Externals) (y : YACV) (name : String) : ExportResult :=
  let events := y.showEventsFor name true
  match events.getLast? with
  | none => ⟨none, y, 0⟩
  | some event =>
      match dictLookup y.build_events name with
      | some topic => ⟨topic.buffer.head?, y, 0⟩
      | none =>
          match event.obj with
          | .raw b =>
              let topic := (emptyTopic Bytes).publish b
              ⟨topic.buffer.head?,
               { y with build_events := dictInsert y.build_events name topic }, 0⟩
          | .cad c =>
              let bytes := ext.buildFn c (extractBuildOpts event.kwargs)
              let topic := (emptyTopic Bytes).publish bytes
              ⟨topic.buffer.head?,
               { y with build_events := dictInsert y.build_events name topic }, 1⟩

/-- The bytes `YACV.export` publishes into a fresh cache entry for the given
event: the payload itself when it already is a GLTF byte string, otherwise
the output of the external build function on the payload and the extracted
build options. -/
def buildOutput (ext : Externals) (ev : UpdatesApiFullData) : Bytes :=
  match ev.obj with
  | .raw b => b
  | .cad c => ext.buildFn c (extractBuildOpts ev.kwargs)

/-- How many times `YACV.export` invokes the external build function when it
creates a cache entry for the given event: zero for a raw-bytes payload, one
for a CAD payload. -/
def buildCount (ev : UpdatesApiFullData) : Nat :=
  match ev.obj with
  | .raw _ => 0
  | .cad _ => 1

/-- The state after `YACV.export` creates and fills a build-cache entry. -/
def cacheInsert (y : YACV) (name : String) (b : Bytes) : YACV :=
  { y with build_events := dictInsert y.build_events name ((emptyTopic Bytes).publish b) }

/-- Lifecycle errors.  `alreadyRunning` models the `AssertionError` raised
by the `assert` statements guarding `YACV.start` (the spec names this
condition `AlreadyRunningError`). -/
inductive YacvError where
  | alreadyRunning
deriving DecidableEq

/-- `YACV.start()` (lines 81-94), sequentialised: the method asserts that no
server thread exists and that startup has not completed, then spawns the
serving thread and blocks until the background `_run_server` has created the
HTTP server and fired `startup_complete`.  The returned state is the state
observed by the caller once `start` returns. -/
def YACV.start (y : YACV) : Except YacvError YACV :=
  if y.server_thread then Except.error YacvError.alreadyRunning
  else if y.startup_complete then Except.error YacvError.alreadyRunning
  else Except.ok { y with server_thread := true, server := true, startup_complete := true }

/-- `YACV.stop()` (lines 97-134), sequentialised: when no server thread
exists the method logs an error and returns immediately with nothing
changed; otherwise it runs the two grace windows (pure waiting), shuts the
server down, joins the thread and clears the thread handle.  Note that
`startup_complete` is never cleared. -/
def YACV.stop (y : YACV) : YACV :=
  if y.server_thread = false then y
  else { y with server_thread := false }

/-- `UpdatesApiData` of `server.py` (no `is_remove` field exists there). -/
structure ServerUpdatesApiData where
  name : String
  hash : String
  obj : Option CadObj
  kwargs : Option Kwargs
deriving DecidableEq

/-- The event-log state of the `Server` class of `server.py`. -/
structure ServerState where
  show_events : BufferedPubSub ServerUpdatesApiData
  object_events : List (String × BufferedPubSub Bytes)
deriving DecidableEq

/-- The class-level initial state of `Server`. -/
def serverInit : ServerState := ⟨emptyTopic _, []⟩

/-- Error raised by `Server.export`: `web.HTTPNotFound`. -/
inductive ServerError where
  | notFound
deriving DecidableEq

/-- The lookup phase of `Server.export` (`server.py` lines 233-246): a
replaying subscription scans the buffer for the first event with the
requested name and `raise web.HTTPNotFound(...)` fires when none exists. -/
def serverExportLookup (s : ServerState) (name : String) :
    Except ServerError (Option CadObj) :=
  match s.show_events.buffer.find? (fun d => d.name == name) with
  | none => Except.error ServerError.notFound
  | some d => Except.ok d.obj

/-- Modelled from the spec: the spec's error-handling section declares
"`NotFoundError` (export/remove of an unknown name)", i.e. a `remove` of an
unknown name should fail.  This definition follows those words (it is the
spec's claimed behaviour, to be compared with `YACV.remove` from the
source). -/
inductive SpecRemoveError where
  | notFound
deriving DecidableEq

/-- Modelled from the spec: `remove(name)` as the spec's error-handling
section describes it — fail with `NotFoundError` when no current event
exists for the name, otherwise behave as the source's `remove`. -/
def removeSpecModel (y : YACV) (name : String) : Except SpecRemoveError YACV :=
  if y.showEventsFor name true = [] then Except.error SpecRemoveError.notFound
  else Except.ok (y.remove name)

/-- The events of a buffer that carry a given name, in order. -/
def eventsNamed (l : List UpdatesApiFullData) (n : String) : List UpdatesApiFullData :=
  l.filter (fun e => e.name == n)

/-- Invariant of every reachable `YACV` state (when `show` is called with
pairwise-distinct names, as every claim does): the buffer holds at most one
event per name, because both `show` and `remove` purge all prior events for
a name before publishing a new one. -/
def YACV.NamesUnique (y : YACV) : Prop :=
  (y.show_events.buffer.map (fun e => e.name)).Nodup

instance (y : YACV) : Decidable y.NamesUnique := by
  unfold YACV.NamesUnique
  infer_instance

/-- A concrete instantiation of the external collaborators, used to evaluate
the model on concrete inputs. -/
def ext0 : Externals :=
  { hashFn := fun o _ => match o with
      | .raw b => "raw" ++ toString b.length
      | .cad c => "cad" ++ toString c.id,
    preprocessFn := fun _ c => c,
    buildFn := fun c _ => [c.id, 42] }

/-- A sample state: the fresh server after showing one raw-bytes object as A. -/
def sampleShown : YACV :=
  yacvInit.showObjs ext0 [YACVSupported.raw [7]] ["A"] kwargsEmpty

/-- A sample state: the fresh server after showing one CAD object as C. -/
def sampleCadShown : YACV :=
  yacvInit.showObjs ext0 [YACVSupported.cad ⟨3⟩] ["C"] kwargsEmpty

end YacvModel

namespace YacvModel

theorem eventEq_refl (e : UpdatesApiFullData) : eventEq e e = true := by
  simp [eventEq]

theorem eventEq_name {z e : UpdatesApiFullData} (h : eventEq z e = true) :
    z.name = e.name := by
  simp only [eventEq, Bool.and_eq_true, beq_iff_eq] at h
  exact h.1.1

theorem beq_event (z e : UpdatesApiFullData) : (z == e) = eventEq z e := rfl

theorem dictLookup_nil (k : String) : dictLookup ([] : List (String × α)) k = none := rfl

theorem dictLookup_dictInsert_self (l : List (String × α)) (k : String) (v : α) :
    dictLookup (dictInsert l k v) k = some v := by
  unfold dictInsert dictLookup
  cases h : l.any (fun p => p.1 == k) with
  | true =>
    rw [if_pos rfl]
    rw [List.find?_map]
    have hpred : ((fun p : String × α => p.1 == k) ∘
        fun p : String × α => if p.1 == k then (k, v) else p) =
        fun p : String × α => p.1 == k := by
      funext q
      by_cases hq : q.1 = k <;> simp [hq]
    rw [hpred]
    have hex : ∃ x ∈ l, ((x.1 == k) = true) := by simpa using h
    have hs : (l.find? (fun p => p.1 == k)).isSome := List.find?_isSome.mpr hex
    obtain ⟨q, hq⟩ := Option.isSome_iff_exists.mp hs
    have hqk := List.find?_some hq
    have hqk2 : q.1 = k := by simpa using hqk
    simp [hq, hqk2]
  | false =>
    rw [if_neg Bool.false_ne_true]
    rw [List.find?_append]
    have hnone : l.find? (fun p => p.1 == k) = none := by
      rw [List.find?_eq_none]
      intro x hx hpx
      have : l.any (fun p => p.1 == k) = true := List.any_eq_true.mpr ⟨x, hx, hpx⟩
      rw [h] at this
      exact Bool.false_ne_true this
    simp [hnone]

theorem dictLookup_dictErase_self (l : List (String × α)) (k : String) :
    dictLookup (dictErase l k) k = none := by
  induction l with
  | nil => rfl
  | cons p l ih =>
    have hn : ((p :: l).filter (fun q => q.1 != k)).find? (fun q => q.1 == k) = none := by
      rw [List.find?_eq_none]
      intro x hx
      have hmem := (List.mem_filter.mp hx).2
      simp only [bne_iff_ne, ne_eq] at hmem
      simp [hmem]
    simp only [dictErase, dictLookup, hn]
    rfl

theorem dictLookup_dictErase_ne (l : List (String × α)) (k' k : String) (h : k' ≠ k) :
    dictLookup (dictErase l k') k = dictLookup l k := by
  induction l with
  | nil => rfl
  | cons p l ih =>
    simp only [dictErase] at ih ⊢
    rw [List.filter_cons]
    by_cases hp : p.1 = k'
    · have h1 : (p.1 != k') = false := by simp [hp]
      have h2 : (p.1 == k) = false := by
        rw [hp]
        exact beq_eq_false_iff_ne.mpr h
      rw [h1]
      simp only [Bool.false_eq_true, if_false]
      rw [ih]
      simp only [dictLookup]
      rw [List.find?_cons_of_neg]
      simp [h2]
    · have h1 : (p.1 != k') = true := by simp [hp]
      rw [h1]
      simp only [if_true]
      by_cases hk : p.1 = k
      · simp only [dictLookup]
        rw [List.find?_cons_of_pos, List.find?_cons_of_pos] <;> simp [hk]
      · simp only [dictLookup]
        rw [List.find?_cons_of_neg, List.find?_cons_of_neg]
        · exact ih
        · simp [hk]
        · simp [hk]

theorem dictLookup_none_dictErase (l : List (String × α)) (k' k : String)
    (h : dictLookup l k = none) : dictLookup (dictErase l k') k = none := by
  by_cases hk : k' = k
  · subst hk; exact dictLookup_dictErase_self l k'
  · rw [dictLookup_dictErase_ne l k' k hk]; exact h

/-- C7: start() fails with AlreadyRunningError whenever the lifecycle state is
not Stopped (i.e. whenever the serving thread already exists or startup has
completed); when in Stopped it spawns the serving loop and blocks the caller
until the startup-complete signal fires, after which thread, server and
startup flag are set. -/
theorem start_fails_unless_stopped (y : YACV) :
    ((y.server_thread = true ∨ y.startup_complete = true) →
      y.start = Except.error YacvError.alreadyRunning) ∧
    (y.server_thread = false → y.startup_complete = false →
      y.start = Except.ok
        { y with server_thread := true, server := true, startup_complete := true }) := by
  constructor
  · rintro (h | h) <;> simp [YACV.start, h]
  · intro h1 h2
    simp [YACV.start, h1, h2]

/-- Witness for C7: from the freshly initialised state `start` succeeds and
sets the three flags; from a state with a live server thread it fails. -/
theorem start_fails_unless_stopped_witness :
    yacvInit.start = Except.ok
      { yacvInit with server_thread := true, server := true, startup_complete := true } ∧
    ({ yacvInit with server_thread := true } : YACV).start =
      Except.error YacvError.alreadyRunning := by
  exact ⟨(start_fails_unless_stopped yacvInit).2 rfl rfl,
         (start_fails_unless_stopped _).1 (Or.inl rfl)⟩

/-- C8: calling stop() when the server is not running is a no-op: it reports
an error on the log, does not throw, and leaves every component of the state
(thread handle, event log, build cache) unchanged. -/
theorem stop_not_running_noop (y : YACV) (h : y.server_thread = false) :
    y.stop = y := by
  simp [YACV.stop, h]

/-- Witness for C8: stopping the freshly initialised (non-running) server
returns it unchanged. -/
theorem stop_not_running_noop_witness : yacvInit.stop = yacvInit :=
  stop_not_running_noop yacvInit rfl

/-- C1: for every name with no current (non-removed) show event in the log,
export fails with the not-found outcome and produces no result: `YACV.export`
returns `None` (leaving the state untouched and never invoking the build
function) and `Server.export` raises `web.HTTPNotFound`. -/
theorem export_of_unknown_name_fails (ext : Externals) (y : YACV)
    (srv : ServerState) (name : String) :
    (y.showEventsFor name true = [] →
      (y.exportGlb ext name).result = none ∧ (y.exportGlb ext name).state = y ∧
      (y.exportGlb ext name).builds = 0) ∧
    ((∀ d ∈ srv.show_events.buffer, d.name ≠ name) →
      serverExportLookup srv name = Except.error ServerError.notFound) := by
  constructor
  · intro h
    simp [YACV.exportGlb, h]
  · intro h
    have hf : srv.show_events.buffer.find? (fun d => d.name == name) = none := by
      rw [List.find?_eq_none]
      intro x hx
      simp [h x hx]
    simp [serverExportLookup, hf]

/-- Witness for C1: exporting the never-shown name A from the initial states
yields `None` on the YACV side and HTTPNotFound on the Server side. -/
theorem export_of_unknown_name_fails_witness :
    ((yacvInit.exportGlb ext0 "A").result = none ∧
     (yacvInit.exportGlb ext0 "A").state = yacvInit ∧
     (yacvInit.exportGlb ext0 "A").builds = 0) ∧
    serverExportLookup serverInit "A" = Except.error ServerError.notFound := by
  refine ⟨(export_of_unknown_name_fails ext0 yacvInit serverInit "A").1 (by decide),
          (export_of_unknown_name_fails ext0 yacvInit serverInit "A").2 ?_⟩
  intro d hd
  simp [serverInit, emptyTopic] at hd

/-- C2 (code bug): after `show(obj, name="A")` and `remove("A")`, querying
`shown_object_names(apply_removes=True)` does not return a list excluding
"A" — it raises `ValueError`, because `remove` already deleted the show
events from the buffer, so the tombstone's `res.remove(obj.name)` finds no
element to remove.  The model evaluates the exception as `none`. -/
theorem shown_object_names_raises_after_remove :
    ((yacvInit.showObjs ext0 [YACVSupported.raw [7]] ["A"] kwargsEmpty).remove "A").shown_object_names
      true = none := by
  decide

/-- Counterexample to C3 as stated: a name whose current show event carries a
raw-bytes payload is current and uncached, yet its first export performs zero
build invocations, not exactly one. -/
theorem export_raw_payload_builds_zero :
    (yacvInit.showObjs ext0 [YACVSupported.raw [7]] ["A"] kwargsEmpty).showEventsFor "A" true ≠ [] ∧
    dictLookup (yacvInit.showObjs ext0 [YACVSupported.raw [7]] ["A"] kwargsEmpty).build_events "A" = none ∧
    ((yacvInit.showObjs ext0 [YACVSupported.raw [7]] ["A"] kwargsEmpty).exportGlb ext0 "A").builds = 0 := by
  refine ⟨by decide, by decide, by decide⟩

/-- Reduction of `YACV.export` when no current event exists for the name. -/
theorem exportGlb_not_found (ext : Externals) (y : YACV) (name : String)
    (h : y.showEventsFor name true = []) :
    y.exportGlb ext name = ⟨none, y, 0⟩ := by
  simp [YACV.exportGlb, h]

/-- Reduction of `YACV.export` when a current event and a cache entry exist:
the first item of the entry's topic is returned, nothing is built. -/
theorem exportGlb_cached (ext : Externals) (y : YACV) (name : String)
    (ev : UpdatesApiFullData) (topic : BufferedPubSub Bytes)
    (hlast : (y.showEventsFor name true).getLast? = some ev)
    (hc : dictLookup y.build_events name = some topic) :
    y.exportGlb ext name = ⟨topic.buffer.head?, y, 0⟩ := by
  simp [YACV.exportGlb, hlast, hc]

/-- Reduction of `YACV.export` when a current event exists but no cache
entry does: the entry is created and filled with `buildOutput`, invoking the
external build function `buildCount ev` times. -/
theorem exportGlb_uncached (ext : Externals) (y : YACV) (name : String)
    (ev : UpdatesApiFullData)
    (hlast : (y.showEventsFor name true).getLast? = some ev)
    (hnc : dictLookup y.build_events name = none) :
    y.exportGlb ext name =
      ⟨some (buildOutput ext ev), cacheInsert y name (buildOutput ext ev), buildCount ev⟩ := by
  cases hobj : ev.obj with
  | raw b =>
    simp [YACV.exportGlb, hlast, hnc, hobj, buildOutput, buildCount, cacheInsert,
          emptyTopic, BufferedPubSub.publish]
  | cad c =>
    simp [YACV.exportGlb, hlast, hnc, hobj, buildOutput, buildCount, cacheInsert,
          emptyTopic, BufferedPubSub.publish]

/-- C3 (amended): for a name with a current show event and no cache entry,
the first export creates the cache entry and invokes the external build
function exactly once when the payload is a CAD object (`buildCount ev = 1`)
and zero times when the payload is already raw bytes, whose bytes are
published directly; a second export with no intervening show/remove for that
name returns bytes identical to the first result, leaves the state unchanged
and never invokes the build function again. -/
theorem export_builds_once_then_cached (ext : Externals) (y : YACV)
    (name : String) (ev : UpdatesApiFullData)
    (hlast : (y.showEventsFor name true).getLast? = some ev)
    (hnc : dictLookup y.build_events name = none) :
    (y.exportGlb ext name).builds = buildCount ev ∧
    (y.exportGlb ext name).result = some (buildOutput ext ev) ∧
    dictLookup (y.exportGlb ext name).state.build_events name =
      some ((emptyTopic Bytes).publish (buildOutput ext ev)) ∧
    ((y.exportGlb ext name).state.exportGlb ext name).builds = 0 ∧
    ((y.exportGlb ext name).state.exportGlb ext name).result =
      (y.exportGlb ext name).result ∧
    ((y.exportGlb ext name).state.exportGlb ext name).state =
      (y.exportGlb ext name).state := by
  have h1 := exportGlb_uncached ext y name ev hlast hnc
  have hlast2 : ((cacheInsert y name (buildOutput ext ev)).showEventsFor name true).getLast? =
      some ev := hlast
  have hlook : dictLookup (cacheInsert y name (buildOutput ext ev)).build_events name =
      some ((emptyTopic Bytes).publish (buildOutput ext ev)) := by
    show dictLookup (dictInsert y.build_events name _) name = _
    exact dictLookup_dictInsert_self y.build_events name _
  have h2 := exportGlb_cached ext (cacheInsert y name (buildOutput ext ev)) name ev
    ((emptyTopic Bytes).publish (buildOutput ext ev)) hlast2 hlook
  rw [h1]
  refine ⟨rfl, rfl, hlook, ?_, ?_, ?_⟩
  · show ((cacheInsert y name (buildOutput ext ev)).exportGlb ext name).builds = 0
    rw [h2]
  · show ((cacheInsert y name (buildOutput ext ev)).exportGlb ext name).result =
      some (buildOutput ext ev)
    rw [h2]
    simp [emptyTopic, BufferedPubSub.publish]
  · show ((cacheInsert y name (buildOutput ext ev)).exportGlb ext name).state =
      cacheInsert y name (buildOutput ext ev)
    rw [h2]

/-- Witness for C3 (amended): a freshly shown CAD object is built exactly
once on first export and served from the cache on the second. -/
theorem export_builds_once_then_cached_witness :
    ((yacvInit.showObjs ext0 [YACVSupported.cad ⟨3⟩] ["C"] kwargsEmpty).exportGlb ext0 "C").builds = 1 ∧
    (((yacvInit.showObjs ext0 [YACVSupported.cad ⟨3⟩] ["C"] kwargsEmpty).exportGlb ext0 "C").state.exportGlb
      ext0 "C").builds = 0 := by
  have h := export_builds_once_then_cached ext0
    (yacvInit.showObjs ext0 [YACVSupported.cad ⟨3⟩] ["C"] kwargsEmpty) "C"
    { name := "C", hash := "cad3", is_remove := false,
      obj := YACVSupported.cad ⟨3⟩, kwargs := kwargsEmpty }
    (by decide) (by decide)
  exact ⟨h.1, h.2.2.2.1⟩

/-- Counterexample to C6 as stated: removing the never-shown name A from the
initial state does not fail — the source's `remove` returns normally with
the state unchanged, while the spec-modelled `remove` demands a
NotFoundError. -/
theorem remove_unknown_no_error :
    yacvInit.remove "A" = yacvInit ∧
    removeSpecModel yacvInit "A" = Except.error SpecRemoveError.notFound := by
  exact ⟨by decide, by rfl⟩

/-- C6 (amended): removing a name with no current show event (in particular
a never-shown name) is a silent no-op: `remove` raises nothing and returns
with the state unchanged. -/
theorem remove_unknown_is_noop (y : YACV) (name : String)
    (h : y.showEventsFor name true = []) : y.remove name = y := by
  simp [YACV.remove, h]

/-- Witness for C6 (amended): removing A from the initial state is a no-op. -/
theorem remove_unknown_is_noop_witness : yacvInit.remove "A" = yacvInit :=
  remove_unknown_is_noop yacvInit "A" (by decide)

end YacvModel

namespace YacvModel

theorem pyForRemoveGo_subset [BEq α] (p : α → Bool) (fuel : Nat) :
    ∀ (i : Nat) (l : List α) (z : α), z ∈ pyForRemoveGo p fuel i l → z ∈ l := by
  induction fuel with
  | zero => intro i l z hz; simpa [pyForRemoveGo] using hz
  | succ fuel ih =>
    intro i l z hz
    rw [pyForRemoveGo] at hz
    by_cases h : i < l.length
    · rw [dif_pos h] at hz
      by_cases hp : p (l.get ⟨i, h⟩) = true
      · rw [if_pos hp] at hz
        exact List.mem_of_mem_eraseP (ih _ _ z hz)
      · rw [if_neg hp] at hz
        exact ih _ _ z hz
    · rwa [dif_neg h] at hz

theorem pyForRemove_subset [BEq α] (p : α → Bool) (l : List α) (z : α)
    (hz : z ∈ pyForRemove p l) : z ∈ l :=
  pyForRemoveGo_subset p l.length 0 l z hz

theorem showEventsStep_skip (n : String) (ar : Bool) (res : List UpdatesApiFullData)
    (e : UpdatesApiFullData) (h : (e.name == n) = false) :
    showEventsStep n ar res e = res := by
  simp [showEventsStep, h]

theorem foldl_showEventsStep_filter (n : String) (ar : Bool) :
    ∀ (l : List UpdatesApiFullData) (res : List UpdatesApiFullData),
    l.foldl (showEventsStep n ar) res = (eventsNamed l n).foldl (showEventsStep n ar) res := by
  intro l
  induction l with
  | nil => intro res; rfl
  | cons e l ih =>
    intro res
    by_cases he : (e.name == n) = true
    · rw [List.foldl_cons, ih]
      have : eventsNamed (e :: l) n = e :: eventsNamed l n := by
        simp [eventsNamed, List.filter_cons, he]
      rw [this, List.foldl_cons]
    · rw [List.foldl_cons, showEventsStep_skip n ar res e (by simpa using he), ih]
      have : eventsNamed (e :: l) n = eventsNamed l n := by
        simp [eventsNamed, List.filter_cons, he]
      rw [this]

theorem fold_showEvents_of_named_nil (l : List UpdatesApiFullData) (n : String) (ar : Bool)
    (h : eventsNamed l n = []) : l.foldl (showEventsStep n ar) [] = [] := by
  rw [foldl_showEventsStep_filter, h]
  rfl

theorem mem_eventsNamed_name {l : List UpdatesApiFullData} {n : String}
    {e : UpdatesApiFullData} (h : e ∈ eventsNamed l n) : e.name = n := by
  have := (List.mem_filter.mp h).2
  simpa using this

theorem fold_showEvents_of_single_live (l : List UpdatesApiFullData) (n : String)
    (e : UpdatesApiFullData) (h : eventsNamed l n = [e]) (hlive : e.is_remove = false) :
    l.foldl (showEventsStep n true) [] = [e] := by
  rw [foldl_showEventsStep_filter, h]
  have hn : (e.name == n) = true := by
    have : e ∈ eventsNamed l n := by rw [h]; simp
    simp [mem_eventsNamed_name this]
  simp [showEventsStep, hn, hlive]

theorem fold_showEvents_of_single_tomb (l : List UpdatesApiFullData) (n : String)
    (e : UpdatesApiFullData) (h : eventsNamed l n = [e]) (hrm : e.is_remove = true) :
    l.foldl (showEventsStep n true) [] = [] := by
  rw [foldl_showEventsStep_filter, h]
  have hn : (e.name == n) = true := by
    have : e ∈ eventsNamed l n := by rw [h]; simp
    simp [mem_eventsNamed_name this]
  simp [showEventsStep, hn, hrm, pyForRemove, pyForRemoveGo]

theorem foldl_showEventsStep_names (n : String) (ar : Bool) :
    ∀ (l : List UpdatesApiFullData) (res : List UpdatesApiFullData),
    (∀ e ∈ res, e.name = n) →
    ∀ e ∈ l.foldl (showEventsStep n ar) res, e.name = n := by
  intro l
  induction l with
  | nil => intro res hres; exact hres
  | cons a l ih =>
    intro res hres
    rw [List.foldl_cons]
    apply ih
    intro e he
    unfold showEventsStep at he
    by_cases ha : (a.name == n) = true
    · rw [if_pos ha] at he
      by_cases hb : (!a.is_remove || !ar) = true
      · rw [if_pos hb] at he
        rcases List.mem_append.mp he with h1 | h1
        · exact hres e h1
        · have : e = a := by simpa using h1
          subst this
          simpa using ha
      · rw [if_neg hb] at he
        exact hres e (pyForRemove_subset _ _ e he)
    · rw [if_neg ha] at he
      exact hres e he

theorem showEventsFor_names (y : YACV) (n : String) (ar : Bool) :
    ∀ e ∈ y.showEventsFor n ar, e.name = n :=
  foldl_showEventsStep_names n ar y.show_events.buffer [] (by intro e he; simp at he)

theorem eventsNamed_append (l1 l2 : List UpdatesApiFullData) (n : String) :
    eventsNamed (l1 ++ l2) n = eventsNamed l1 n ++ eventsNamed l2 n := by
  simp [eventsNamed, List.filter_append]

theorem eventsNamed_eraseP_ne (l : List UpdatesApiFullData) (e : UpdatesApiFullData)
    (n : String) (hne : e.name ≠ n) :
    eventsNamed (l.eraseP (fun z => z == e)) n = eventsNamed l n := by
  induction l with
  | nil => rfl
  | cons a l ih =>
    by_cases ha : (a == e) = true
    · have he1 : (a :: l).eraseP (fun z => z == e) = l := by
        rw [List.eraseP_cons]
        simp [ha]
      rw [he1]
      have han : (a.name == n) = false := by
        have := eventEq_name (show eventEq a e = true from ha)
        simp [this, hne]
      simp [eventsNamed, List.filter_cons, han]
    · have ha2 : (a == e) = false := by simpa using ha
      have he1 : (a :: l).eraseP (fun z => z == e) = a :: l.eraseP (fun z => z == e) := by
        rw [List.eraseP_cons]
        simp [ha2]
      rw [he1]
      simp only [eventsNamed, List.filter_cons] at ih ⊢
      by_cases han : (a.name == n) = true
      · simp [han, ih]
      · simp [han, ih]

theorem eventsNamed_eraseP_single (l : List UpdatesApiFullData) (e : UpdatesApiFullData)
    (n : String) (h : eventsNamed l n = [e]) :
    eventsNamed (l.eraseP (fun z => z == e)) n = [] := by
  induction l with
  | nil => simp [eventsNamed] at h
  | cons a l ih =>
    by_cases han : (a.name == n) = true
    · have h2 : a = e ∧ eventsNamed l n = [] := by
        have hh : a :: eventsNamed l n = [e] := by
          rw [← h]; simp [eventsNamed, List.filter_cons, han]
        simpa only [List.cons.injEq] using hh
      obtain ⟨rfl, hrest⟩ := h2
      have he1 : (a :: l).eraseP (fun z => z == a) = l := by
        rw [List.eraseP_cons]
        simp [beq_event, eventEq_refl]
      rw [he1]
      exact hrest
    · have hstep : eventsNamed (a :: l) n = eventsNamed l n := by
        simp [eventsNamed, List.filter_cons, han]
      rw [hstep] at h
      have hen : (e.name == n) = true := by
        have : e ∈ eventsNamed l n := by rw [h]; simp
        simp [mem_eventsNamed_name this]
      have hne : (a == e) = false := by
        cases hae : (a == e) with
        | false => rfl
        | true =>
          exfalso
          have hname := eventEq_name (show eventEq a e = true from hae)
          rw [hname] at han
          exact han hen
      have he1 : (a :: l).eraseP (fun z => z == e) = a :: l.eraseP (fun z => z == e) := by
        rw [List.eraseP_cons]
        simp [hne]
      rw [he1]
      have : eventsNamed (a :: l.eraseP (fun z => z == e)) n =
          eventsNamed (l.eraseP (fun z => z == e)) n := by
        simp [eventsNamed, List.filter_cons, han]
      rw [this]
      exact ih h

theorem not_mem_map_name (l : List UpdatesApiFullData) (n : String)
    (h : eventsNamed l n = []) : n ∉ l.map (fun e => e.name) := by
  intro hmem
  obtain ⟨e, he, hen⟩ := List.mem_map.mp hmem
  have : e ∈ eventsNamed l n := List.mem_filter.mpr ⟨he, by simp [hen]⟩
  rw [h] at this
  simp at this

theorem filter_name_len_le_one (l : List UpdatesApiFullData)
    (hU : (l.map (fun e => e.name)).Nodup) (n : String) :
    eventsNamed l n = [] ∨ ∃ e, eventsNamed l n = [e] := by
  induction l with
  | nil => left; rfl
  | cons a l ih =>
    simp only [List.map_cons, List.nodup_cons] at hU
    obtain ⟨hna, hnl⟩ := hU
    by_cases han : (a.name == n) = true
    · right
      refine ⟨a, ?_⟩
      have hrest : eventsNamed l n = [] := by
        simp only [eventsNamed]
        rw [List.filter_eq_nil_iff]
        intro e he hcon
        apply hna
        have h1 : a.name = n := by simpa using han
        have h2 : e.name = n := by simpa using hcon
        rw [h1, ← h2]
        exact List.mem_map_of_mem _ he
      have hcons : eventsNamed (a :: l) n = a :: eventsNamed l n := by
        simp [eventsNamed, List.filter_cons, han]
      rw [hcons, hrest]
    · have := ih hnl
      have hstep : eventsNamed (a :: l) n = eventsNamed l n := by
        simp [eventsNamed, List.filter_cons, han]
      rw [hstep]
      exact this

end YacvModel

namespace YacvModel

theorem remove_nil_aux (y : YACV) (n : String) (h : y.showEventsFor n true = []) :
    y.remove n = y := by
  simp [YACV.remove, h]

theorem remove_eq_of_getLast (y : YACV) (n : String) (lastEv : UpdatesApiFullData)
    (hL : (y.showEventsFor n true).getLast? = some lastEv) :
    y.remove n = { y with
      show_events := ((y.showEventsFor n true).foldl (fun b e => b.delete e)
        y.show_events).publish { lastEv with is_remove := true },
      build_events := dictErase y.build_events n } := by
  simp only [YACV.remove, hL]

theorem remove_buffer_of_getLast (y : YACV) (n : String) (lastEv : UpdatesApiFullData)
    (hL : (y.showEventsFor n true).getLast? = some lastEv) :
    (y.remove n).show_events.buffer =
      ((y.showEventsFor n true).foldl (fun b e => b.delete e) y.show_events).buffer ++
        [{ lastEv with is_remove := true }] := by
  rw [remove_eq_of_getLast y n lastEv hL]
  rfl

theorem remove_build_of_getLast (y : YACV) (n : String) (lastEv : UpdatesApiFullData)
    (hL : (y.showEventsFor n true).getLast? = some lastEv) :
    (y.remove n).build_events = dictErase y.build_events n := by
  rw [remove_eq_of_getLast y n lastEv hL]

theorem eventsNamed_foldl_delete (shows : List UpdatesApiFullData) (n : String) :
    ∀ (t : BufferedPubSub UpdatesApiFullData), (∀ e ∈ shows, e.name ≠ n) →
    eventsNamed (shows.foldl (fun b e => b.delete e) t).buffer n = eventsNamed t.buffer n := by
  induction shows with
  | nil => intro t _; rfl
  | cons e shows ih =>
    intro t h
    rw [List.foldl_cons]
    rw [ih (t.delete e) (fun x hx => h x (List.mem_cons_of_mem _ hx))]
    exact eventsNamed_eraseP_ne t.buffer e n (h e (List.mem_cons_self _ _))

theorem eventsNamed_remove_ne (y : YACV) (m n : String) (hmn : m ≠ n) :
    eventsNamed (y.remove m).show_events.buffer n = eventsNamed y.show_events.buffer n := by
  cases hL : (y.showEventsFor m true).getLast? with
  | none =>
    have h0 : y.showEventsFor m true = [] := by simpa using hL
    rw [remove_nil_aux y m h0]
  | some lastEv =>
    rw [remove_buffer_of_getLast y m lastEv hL]
    rw [eventsNamed_append]
    have hnames := showEventsFor_names y m true
    rw [eventsNamed_foldl_delete _ _ _ (fun e he => by rw [hnames e he]; exact hmn)]
    have hlast_name : lastEv.name = m :=
      hnames lastEv (List.mem_of_getLast?_eq_some hL)
    have htomb : eventsNamed [{ lastEv with is_remove := true }] n = [] := by
      simp [eventsNamed, List.filter_cons, hlast_name, hmn]
    rw [htomb]
    simp

theorem showEventsFor_congr (y1 y2 : YACV) (n : String) (ar : Bool)
    (h : eventsNamed y1.show_events.buffer n = eventsNamed y2.show_events.buffer n) :
    y1.showEventsFor n ar = y2.showEventsFor n ar := by
  unfold YACV.showEventsFor
  rw [foldl_showEventsStep_filter, h, ← foldl_showEventsStep_filter]

theorem showEventsFor_remove_ne (y : YACV) (m n : String) (ar : Bool) (hmn : m ≠ n) :
    (y.remove m).showEventsFor n ar = y.showEventsFor n ar :=
  showEventsFor_congr _ _ n ar (eventsNamed_remove_ne y m n hmn)

theorem remove_eq_of_single (y : YACV) (n : String) (e : UpdatesApiFullData)
    (hev : eventsNamed y.show_events.buffer n = [e]) (hlive : e.is_remove = false) :
    y.remove n = { y with
      show_events :=
        ⟨(y.show_events.buffer.eraseP (fun z => z == e)) ++ [{ e with is_remove := true }]⟩,
      build_events := dictErase y.build_events n } := by
  have hs : y.showEventsFor n true = [e] :=
    fold_showEvents_of_single_live y.show_events.buffer n e hev hlive
  have hL : (y.showEventsFor n true).getLast? = some e := by rw [hs]; rfl
  rw [remove_eq_of_getLast y n e hL, hs]
  rfl

theorem eventsNamed_remove_single (y : YACV) (n : String) (e : UpdatesApiFullData)
    (hev : eventsNamed y.show_events.buffer n = [e]) (hlive : e.is_remove = false) :
    eventsNamed (y.remove n).show_events.buffer n = [{ e with is_remove := true }] := by
  rw [remove_eq_of_single y n e hev hlive]
  show eventsNamed ((y.show_events.buffer.eraseP (fun z => z == e)) ++
    [{ e with is_remove := true }]) n = _
  rw [eventsNamed_append, eventsNamed_eraseP_single y.show_events.buffer e n hev]
  have hen : e.name = n := by
    have : e ∈ eventsNamed y.show_events.buffer n := by rw [hev]; simp
    exact mem_eventsNamed_name this
  simp [eventsNamed, List.filter_cons, hen]

theorem remove_self_current_nil (y : YACV) (m : String) (hU : y.NamesUnique) :
    (y.remove m).showEventsFor m true = [] := by
  rcases filter_name_len_le_one y.show_events.buffer hU m with h0 | ⟨e, he⟩
  · have hs : y.showEventsFor m true = [] :=
      fold_showEvents_of_named_nil y.show_events.buffer m true h0
    rw [remove_nil_aux y m hs]
    exact hs
  · cases hrm : e.is_remove with
    | true =>
      have hs : y.showEventsFor m true = [] :=
        fold_showEvents_of_single_tomb y.show_events.buffer m e he hrm
      rw [remove_nil_aux y m hs]
      exact hs
    | false =>
      have h1 := eventsNamed_remove_single y m e he hrm
      exact fold_showEvents_of_single_tomb _ m _ h1 rfl

theorem namesUnique_remove (y : YACV) (m : String) (hU : y.NamesUnique) :
    (y.remove m).NamesUnique := by
  rcases filter_name_len_le_one y.show_events.buffer hU m with h0 | ⟨e, he⟩
  · rw [remove_nil_aux y m (fold_showEvents_of_named_nil y.show_events.buffer m true h0)]
    exact hU
  · cases hrm : e.is_remove with
    | true =>
      rw [remove_nil_aux y m (fold_showEvents_of_single_tomb y.show_events.buffer m e he hrm)]
      exact hU
    | false =>
      rw [remove_eq_of_single y m e he hrm]
      show ((((y.show_events.buffer.eraseP (fun z => z == e)) ++
        ([{ e with is_remove := true }] : List UpdatesApiFullData)).map
          (fun ev : UpdatesApiFullData => ev.name))).Nodup
      rw [List.map_append]
      rw [List.nodup_append]
      refine ⟨?_, by simp, ?_⟩
      · have hsub : List.Sublist (y.show_events.buffer.eraseP (fun z => z == e))
            y.show_events.buffer :=
          List.eraseP_sublist _
        exact List.Nodup.sublist (hsub.map (fun e => e.name)) hU
      · intro x hx hx2
        have hxm : x = m := by
          simp only [List.map_cons, List.map_nil, List.mem_singleton] at hx2
          have hen : e.name = m := by
            have : e ∈ eventsNamed y.show_events.buffer m := by rw [he]; simp
            exact mem_eventsNamed_name this
          rw [hx2]
          exact hen
        subst hxm
        exact not_mem_map_name _ x (eventsNamed_eraseP_single y.show_events.buffer e x he) hx

theorem dictLookup_remove_none (y : YACV) (m k : String)
    (h : dictLookup y.build_events k = none) :
    dictLookup (y.remove m).build_events k = none := by
  cases hL : (y.showEventsFor m true).getLast? with
  | none =>
    rw [remove_nil_aux y m (by simpa using hL)]
    exact h
  | some lastEv =>
    rw [remove_build_of_getLast y m lastEv hL]
    exact dictLookup_none_dictErase _ _ _ h

end YacvModel

namespace YacvModel

/-- C5: for every name with at least one current show event (in a reachable,
names-unique state), `remove` deletes the superseded log entry for that name
from the buffer, publishes exactly one tombstone event with `is_remove=true`
that carries the latest show event's hash (it is a field-for-field copy of
that event with only `is_remove` flipped), and drops the build-cache entry
for the name. -/
theorem remove_current_publishes_tombstone (y : YACV) (name : String)
    (hU : y.NamesUnique) (hcur : y.showEventsFor name true ≠ []) :
    ∃ e, eventsNamed y.show_events.buffer name = [e] ∧ e.is_remove = false ∧
      y.showEventsFor name true = [e] ∧
      (y.remove name).show_events.buffer =
        (y.show_events.buffer.eraseP (fun z => z == e)) ++ [{ e with is_remove := true }] ∧
      eventsNamed (y.remove name).show_events.buffer name = [{ e with is_remove := true }] ∧
      dictLookup (y.remove name).build_events name = none := by
  rcases filter_name_len_le_one y.show_events.buffer hU name with h0 | ⟨e, he⟩
  · exact absurd (fold_showEvents_of_named_nil _ name true h0) hcur
  · cases hrm : e.is_remove with
    | true => exact absurd (fold_showEvents_of_single_tomb _ name e he hrm) hcur
    | false =>
      refine ⟨e, he, hrm, fold_showEvents_of_single_live _ name e he hrm, ?_,
        eventsNamed_remove_single y name e he hrm, ?_⟩
      · rw [remove_eq_of_single y name e he hrm]
      · rw [remove_eq_of_single y name e he hrm]
        exact dictLookup_dictErase_self _ _

/-- Witness for C5: removing the freshly shown name A. -/
theorem remove_current_publishes_tombstone_witness :
    sampleShown.NamesUnique ∧ sampleShown.showEventsFor "A" true ≠ [] ∧
    ∃ e, eventsNamed sampleShown.show_events.buffer "A" = [e] ∧ e.is_remove = false ∧
      sampleShown.showEventsFor "A" true = [e] ∧
      (sampleShown.remove "A").show_events.buffer =
        (sampleShown.show_events.buffer.eraseP (fun z => z == e)) ++
          [{ e with is_remove := true }] ∧
      eventsNamed (sampleShown.remove "A").show_events.buffer "A" =
        [{ e with is_remove := true }] ∧
      dictLookup (sampleShown.remove "A").build_events "A" = none :=
  ⟨by decide, by decide,
   remove_current_publishes_tombstone sampleShown "A" (by decide) (by decide)⟩

theorem clearStep_except (except : List String) (y : YACV) (a : UpdatesApiFullData)
    (h : except.contains a.name = true) : clearStep except y a = y := by
  unfold clearStep
  rw [h]
  simp

theorem clearStep_remove (except : List String) (y : YACV) (a : UpdatesApiFullData)
    (h : except.contains a.name = false) : clearStep except y a = y.remove a.name := by
  unfold clearStep
  rw [h]
  simp

theorem clearFold_eventsNamed_except (except : List String) (n : String)
    (hn : except.contains n = true) :
    ∀ (l : List UpdatesApiFullData) (y : YACV),
    eventsNamed (l.foldl (clearStep except) y).show_events.buffer n =
      eventsNamed y.show_events.buffer n := by
  intro l
  induction l with
  | nil => intro y; rfl
  | cons a l ih =>
    intro y
    rw [List.foldl_cons]
    cases ha : except.contains a.name with
    | true =>
      rw [clearStep_except except y a ha]
      exact ih y
    | false =>
      rw [clearStep_remove except y a ha]
      rw [ih (y.remove a.name)]
      apply eventsNamed_remove_ne
      intro hcon
      rw [hcon, hn] at ha
      exact Bool.false_ne_true ha.symm

theorem clearFold_build_none (except : List String) (k : String) :
    ∀ (l : List UpdatesApiFullData) (y : YACV), dictLookup y.build_events k = none →
    dictLookup (l.foldl (clearStep except) y).build_events k = none := by
  intro l
  induction l with
  | nil => intro y h; exact h
  | cons a l ih =>
    intro y h
    rw [List.foldl_cons]
    cases ha : except.contains a.name with
    | true =>
      rw [clearStep_except except y a ha]
      exact ih y h
    | false =>
      rw [clearStep_remove except y a ha]
      exact ih (y.remove a.name) (dictLookup_remove_none y a.name k h)

theorem clearFold_current_nil (except : List String) :
    ∀ (l : List UpdatesApiFullData) (y : YACV), y.NamesUnique →
    (l.foldl (clearStep except) y).NamesUnique ∧
    (∀ n, except.contains n = false →
      ((∃ e ∈ l, e.name = n) ∨ y.showEventsFor n true = []) →
      (l.foldl (clearStep except) y).showEventsFor n true = []) := by
  intro l
  induction l with
  | nil =>
    intro y hU
    refine ⟨hU, ?_⟩
    intro n hn hcase
    rcases hcase with ⟨e, he, _⟩ | h
    · simp at he
    · exact h
  | cons a l ih =>
    intro y hU
    rw [List.foldl_cons]
    cases ha : except.contains a.name with
    | true =>
      rw [clearStep_except except y a ha]
      obtain ⟨ih1, ih2⟩ := ih y hU
      refine ⟨ih1, ?_⟩
      intro n hn hcase
      apply ih2 n hn
      rcases hcase with ⟨e, he, hen⟩ | hy
      · rcases List.mem_cons.mp he with rfl | hel
        · exfalso
          rw [hen, hn] at ha
          exact Bool.false_ne_true ha
        · exact Or.inl ⟨e, hel, hen⟩
      · exact Or.inr hy
    | false =>
      rw [clearStep_remove except y a ha]
      have hU1 := namesUnique_remove y a.name hU
      obtain ⟨ih1, ih2⟩ := ih (y.remove a.name) hU1
      refine ⟨ih1, ?_⟩
      intro n hn hcase
      apply ih2 n hn
      rcases hcase with ⟨e, he, hen⟩ | hy
      · rcases List.mem_cons.mp he with rfl | hel
        · right
          rw [← hen]
          exact remove_self_current_nil y e.name hU
        · exact Or.inl ⟨e, hel, hen⟩
      · right
        by_cases hna : a.name = n
        · rw [← hna]
          exact remove_self_current_nil y a.name hU
        · rw [showEventsFor_remove_ne y a.name n true hna]
          exact hy

/-- C9: in a reachable (names-unique) state, `clear(exceptNames)` calls
`remove` for every buffered name outside `exceptNames`, so that afterwards
no name outside `exceptNames` has a current show event, while the buffered
events of every name inside `exceptNames` are exactly preserved. -/
theorem clear_removes_all_but_excepted (y : YACV) (except : List String)
    (hU : y.NamesUnique) :
    (∀ n, except.contains n = false → (y.clear except).showEventsFor n true = []) ∧
    (∀ n, except.contains n = true →
      eventsNamed (y.clear except).show_events.buffer n =
        eventsNamed y.show_events.buffer n) := by
  constructor
  · intro n hn
    have h := (clearFold_current_nil except y.show_events.buffer y hU).2 n hn
    show (y.show_events.buffer.foldl (clearStep except) y).showEventsFor n true = []
    apply h
    by_cases hcur : y.showEventsFor n true = []
    · exact Or.inr hcur
    · left
      by_contra hno
      push_neg at hno
      apply hcur
      apply fold_showEvents_of_named_nil
      simp only [eventsNamed]
      rw [List.filter_eq_nil_iff]
      intro e he
      simp [hno e he]
  · intro n hn
    exact clearFold_eventsNamed_except except n hn y.show_events.buffer y

/-- Witness for C9: clearing the state with A shown removes A when A is not
excepted and preserves A's events when it is. -/
theorem clear_removes_all_but_excepted_witness :
    ((sampleShown.clear []).showEventsFor "A" true = []) ∧
    (eventsNamed (sampleShown.clear ["A"]).show_events.buffer "A" =
      eventsNamed sampleShown.show_events.buffer "A") := by
  constructor
  · exact (clear_removes_all_but_excepted sampleShown [] (by decide)).1 "A" (by decide)
  · exact (clear_removes_all_but_excepted sampleShown ["A"] (by decide)).2 "A" (by decide)

end YacvModel

namespace YacvModel

theorem purgeBufStep_pos (names : List String) (b : List UpdatesApiFullData)
    (o : UpdatesApiFullData) (h : names.contains o.name = true) :
    purgeBufStep names b o = b.eraseP (fun z => z == o) := by
  unfold purgeBufStep
  rw [h]
  simp

theorem purgeBufStep_neg (names : List String) (b : List UpdatesApiFullData)
    (o : UpdatesApiFullData) (h : names.contains o.name = false) :
    purgeBufStep names b o = b := by
  unfold purgeBufStep
  rw [h]
  simp

theorem purgeDictStep_pos (names : List String) (d : List (String × BufferedPubSub Bytes))
    (o : UpdatesApiFullData) (h : names.contains o.name = true) :
    purgeDictStep names d o = dictErase d o.name := by
  unfold purgeDictStep
  rw [h]
  simp

theorem purgeDictStep_neg (names : List String) (d : List (String × BufferedPubSub Bytes))
    (o : UpdatesApiFullData) (h : names.contains o.name = false) :
    purgeDictStep names d o = d := by
  unfold purgeDictStep
  rw [h]
  simp

theorem purgeStep_proj (names : List String) (y : YACV) (o : UpdatesApiFullData) :
    (purgeStep names y o).show_events.buffer = purgeBufStep names y.show_events.buffer o ∧
    (purgeStep names y o).build_events = purgeDictStep names y.build_events o := by
  cases h : names.contains o.name with
  | true =>
    unfold purgeStep purgeBufStep purgeDictStep
    rw [h]
    simp [BufferedPubSub.delete]
  | false =>
    unfold purgeStep purgeBufStep purgeDictStep
    rw [h]
    simp

theorem purge_foldl_buffer (names : List String) :
    ∀ (l : List UpdatesApiFullData) (y : YACV),
    (l.foldl (purgeStep names) y).show_events.buffer =
      l.foldl (purgeBufStep names) y.show_events.buffer := by
  intro l
  induction l with
  | nil => intro y; rfl
  | cons a l ih =>
    intro y
    rw [List.foldl_cons, List.foldl_cons, ih (purgeStep names y a),
        (purgeStep_proj names y a).1]

theorem purge_foldl_build (names : List String) :
    ∀ (l : List UpdatesApiFullData) (y : YACV),
    (l.foldl (purgeStep names) y).build_events =
      l.foldl (purgeDictStep names) y.build_events := by
  intro l
  induction l with
  | nil => intro y; rfl
  | cons a l ih =>
    intro y
    rw [List.foldl_cons, List.foldl_cons, ih (purgeStep names y a),
        (purgeStep_proj names y a).2]

theorem eraseFold_pre (names : List String) :
    ∀ (l pre : List UpdatesApiFullData), (∀ z ∈ pre, names.contains z.name = false) →
    l.foldl (purgeBufStep names) (pre ++ l) =
      pre ++ l.filter (fun o => !names.contains o.name) := by
  intro l
  induction l with
  | nil =>
    intro pre _
    simp
  | cons a l ih =>
    intro pre hpre
    rw [List.foldl_cons]
    cases ha : names.contains a.name with
    | true =>
      rw [purgeBufStep_pos names _ a ha]
      have hnotin : ∀ z ∈ pre, ¬((fun z => z == a) z = true) := by
        intro z hz hcon
        have hn := eventEq_name (show eventEq z a = true from hcon)
        have hzf := hpre z hz
        rw [hn, ha] at hzf
        exact Bool.false_ne_true hzf.symm
      have he1 := List.eraseP_append_right (a :: l) hnotin
      have he2 : (a :: l).eraseP (fun z => z == a) = l := by
        rw [List.eraseP_cons]
        simp [beq_event, eventEq_refl]
      rw [he1, he2, ih pre hpre]
      have hfil : (a :: l).filter (fun o => !names.contains o.name) =
          l.filter (fun o => !names.contains o.name) := by
        rw [List.filter_cons, ha]
        simp
      rw [hfil]
    | false =>
      rw [purgeBufStep_neg names _ a ha]
      have hassoc : pre ++ a :: l = (pre ++ [a]) ++ l := by simp
      rw [hassoc]
      rw [ih (pre ++ [a]) ?_]
      · have hfil : (a :: l).filter (fun o => !names.contains o.name) =
            a :: l.filter (fun o => !names.contains o.name) := by
          rw [List.filter_cons, ha]
          simp
        rw [hfil]
        simp
      · intro z hz
        rcases List.mem_append.mp hz with h1 | h1
        · exact hpre z h1
        · have hza : z = a := by simpa using h1
          rw [hza]
          exact ha

theorem purge_buffer_filter (names : List String) (y : YACV) :
    (y.show_events.buffer.foldl (purgeStep names) y).show_events.buffer =
      y.show_events.buffer.filter (fun o => !names.contains o.name) := by
  rw [purge_foldl_buffer]
  have h := eraseFold_pre names y.show_events.buffer [] (by intro z hz; simp at hz)
  simpa using h

theorem dictFoldErase_none (names : List String) (k : String) :
    ∀ (l : List UpdatesApiFullData) (d : List (String × BufferedPubSub Bytes)),
    dictLookup d k = none →
    dictLookup (l.foldl (purgeDictStep names) d) k = none := by
  intro l
  induction l with
  | nil => intro d h; exact h
  | cons a l ih =>
    intro d h
    rw [List.foldl_cons]
    cases ha : names.contains a.name with
    | true =>
      rw [purgeDictStep_pos names d a ha]
      exact ih _ (dictLookup_none_dictErase d a.name k h)
    | false =>
      rw [purgeDictStep_neg names d a ha]
      exact ih d h

theorem dictFoldErase_hit (names : List String) (k : String)
    (hk : names.contains k = true) :
    ∀ (l : List UpdatesApiFullData) (d : List (String × BufferedPubSub Bytes)),
    (∃ e ∈ l, e.name = k) →
    dictLookup (l.foldl (purgeDictStep names) d) k = none := by
  intro l
  induction l with
  | nil =>
    intro d h
    obtain ⟨e, he, _⟩ := h
    simp at he
  | cons a l ih =>
    intro d h
    obtain ⟨e, hel, hen⟩ := h
    rw [List.foldl_cons]
    rcases List.mem_cons.mp hel with rfl | h1
    · have ha : names.contains e.name = true := by rw [hen]; exact hk
      rw [purgeDictStep_pos names d e ha]
      apply dictFoldErase_none
      rw [hen]
      exact dictLookup_dictErase_self d k
    · exact ih (purgeDictStep names d a) ⟨e, h1, hen⟩

theorem exists_of_eventsNamed_ne (l : List UpdatesApiFullData) (n : String)
    (h : eventsNamed l n ≠ []) : ∃ e ∈ l, e.name = n := by
  cases hE : eventsNamed l n with
  | nil => exact absurd hE h
  | cons e es =>
    have hmem : e ∈ eventsNamed l n := by rw [hE]; simp
    exact ⟨e, (List.mem_filter.mp hmem).1, mem_eventsNamed_name hmem⟩

theorem publishedEvent_name (ext : Externals) (k : Kwargs) (o : YACVSupported)
    (n : String) : (publishedEvent ext k o n).name = n := by
  cases o <;> rfl

theorem publishedEvent_live (ext : Externals) (k : Kwargs) (o : YACVSupported)
    (n : String) : (publishedEvent ext k o n).is_remove = false := by
  cases o <;> rfl

theorem showObjs_single_eq (ext : Externals) (y : YACV) (o : YACVSupported)
    (n : String) (k : Kwargs) :
    y.showObjs ext [o] [n] k =
      publishStep ext k
        ((if k.auto_clear.getD true then y.clear [n] else y).show_events.buffer.foldl
          (purgeStep [n]) (if k.auto_clear.getD true then y.clear [n] else y)) (o, n) := rfl

theorem purged_publish_eventsNamed (ext : Externals) (y1 : YACV) (o : YACVSupported)
    (n : String) (k : Kwargs) :
    eventsNamed (publishStep ext k (y1.show_events.buffer.foldl (purgeStep [n]) y1)
      (o, n)).show_events.buffer n = [publishedEvent ext k o n] := by
  show eventsNamed ((y1.show_events.buffer.foldl (purgeStep [n]) y1).show_events.buffer ++
    [publishedEvent ext k o n]) n = _
  rw [eventsNamed_append, purge_buffer_filter]
  have h1 : eventsNamed (y1.show_events.buffer.filter
      (fun o => !([n].contains o.name))) n = [] := by
    simp only [eventsNamed]
    rw [List.filter_eq_nil_iff]
    intro e he hcon
    have hmem := List.mem_filter.mp he
    have hnc : ([n].contains e.name) = false := by
      cases hcc : ([n].contains e.name) with
      | false => rfl
      | true =>
        exfalso
        have := hmem.2
        rw [hcc] at this
        simp at this
    have hne : e.name = n := by simpa using hcon
    rw [hne] at hnc
    simp at hnc
  rw [h1]
  have hev : eventsNamed [publishedEvent ext k o n] n = [publishedEvent ext k o n] := by
    simp [eventsNamed, List.filter_cons, publishedEvent_name]
  rw [hev]
  simp

theorem show_single_eventsNamed (ext : Externals) (y : YACV) (o : YACVSupported)
    (n : String) (k : Kwargs) :
    eventsNamed (y.showObjs ext [o] [n] k).show_events.buffer n =
      [publishedEvent ext k o n] ∧
    (y.showObjs ext [o] [n] k).showEventsFor n true = [publishedEvent ext k o n] := by
  have key : eventsNamed (y.showObjs ext [o] [n] k).show_events.buffer n =
      [publishedEvent ext k o n] := by
    rw [showObjs_single_eq]
    exact purged_publish_eventsNamed ext _ o n k
  exact ⟨key, fold_showEvents_of_single_live _ n _ key (publishedEvent_live ext k o n)⟩

theorem show_single_build_none (ext : Externals) (y : YACV) (o : YACVSupported)
    (n : String) (k : Kwargs)
    (hc : dictLookup y.build_events n = none ∨ eventsNamed y.show_events.buffer n ≠ []) :
    dictLookup (y.showObjs ext [o] [n] k).build_events n = none := by
  rw [showObjs_single_eq]
  show dictLookup ((if k.auto_clear.getD true then y.clear [n] else y).show_events.buffer.foldl
    (purgeStep [n]) (if k.auto_clear.getD true then y.clear [n] else y)).build_events n = none
  rw [purge_foldl_build]
  cases hac : k.auto_clear.getD true with
  | false =>
    rw [if_neg Bool.false_ne_true]
    rcases hc with hnone | hne
    · exact dictFoldErase_none [n] n _ _ hnone
    · exact dictFoldErase_hit [n] n (by simp) _ _ (exists_of_eventsNamed_ne _ n hne)
  | true =>
    rw [if_pos rfl]
    rcases hc with hnone | hne
    · apply dictFoldErase_none [n] n
      show dictLookup (y.show_events.buffer.foldl (clearStep [n]) y).build_events n = none
      exact clearFold_build_none [n] n y.show_events.buffer y hnone
    · apply dictFoldErase_hit [n] n (by simp)
      apply exists_of_eventsNamed_ne
      show eventsNamed (y.show_events.buffer.foldl (clearStep [n]) y).show_events.buffer n ≠ []
      rw [clearFold_eventsNamed_except [n] n (by simp) y.show_events.buffer y]
      exact hne

/-- C4: a second `show` with the same name purges the prior pending event
for that name from the buffer and invalidates any build-cache entry for it,
then publishes exactly one new event, so exactly one event for that name
remains in the log — the newly published one — and it is the unique current
event. -/
theorem second_show_single_current_event (ext : Externals) (y : YACV)
    (o1 o2 : YACVSupported) (name : String) (k1 k2 : Kwargs) :
    eventsNamed ((y.showObjs ext [o1] [name] k1).showObjs ext
        [o2] [name] k2).show_events.buffer name = [publishedEvent ext k2 o2 name] ∧
    ((y.showObjs ext [o1] [name] k1).showObjs ext
        [o2] [name] k2).showEventsFor name true = [publishedEvent ext k2 o2 name] ∧
    dictLookup ((y.showObjs ext [o1] [name] k1).showObjs ext
        [o2] [name] k2).build_events name = none := by
  have h2 := show_single_eventsNamed ext (y.showObjs ext [o1] [name] k1) o2 name k2
  have h1 := show_single_eventsNamed ext y o1 name k1
  have hb := show_single_build_none ext (y.showObjs ext [o1] [name] k1) o2 name k2
    (Or.inr (by rw [h1.1]; simp))
  exact ⟨h2.1, h2.2, hb⟩

/-- C10: showing a raw byte string under a name and then exporting that name
returns exactly those bytes, and the external build function is never
invoked; show followed by export is the identity on raw-bytes payloads.
The hypothesis says the state is consistent (reachable): a build-cache entry
for the name only exists alongside a buffered event for the name. -/
theorem show_export_roundtrip_raw (ext : Externals) (y : YACV) (b : Bytes)
    (name : String) (kwargs : Kwargs)
    (hc : dictLookup y.build_events name = none ∨
      eventsNamed y.show_events.buffer name ≠ []) :
    ((y.showObjs ext [YACVSupported.raw b] [name] kwargs).exportGlb ext name).result =
      some b ∧
    ((y.showObjs ext [YACVSupported.raw b] [name] kwargs).exportGlb ext name).builds = 0 := by
  have hev := show_single_eventsNamed ext y (YACVSupported.raw b) name kwargs
  have hnc := show_single_build_none ext y (YACVSupported.raw b) name kwargs hc
  have hlast : ((y.showObjs ext [YACVSupported.raw b] [name] kwargs).showEventsFor
      name true).getLast? = some (publishedEvent ext kwargs (YACVSupported.raw b) name) := by
    rw [hev.2]
    rfl
  have h1 := exportGlb_uncached ext _ name _ hlast hnc
  rw [h1]
  exact ⟨rfl, rfl⟩

/-- Witness for C10: showing bytes 0x07 as A on the fresh server and
exporting A returns exactly those bytes with zero build invocations. -/
theorem show_export_roundtrip_raw_witness :
    ((yacvInit.showObjs ext0 [YACVSupported.raw [7]] ["A"] kwargsEmpty).exportGlb
      ext0 "A").result = some [7] ∧
    ((yacvInit.showObjs ext0 [YACVSupported.raw [7]] ["A"] kwargsEmpty).exportGlb
      ext0 "A").builds = 0 :=
  show_export_roundtrip_raw ext0 yacvInit [7] "A" kwargsEmpty (Or.inl (by decide))

end YacvModel
